import Mathlib

/-!
Verification of the rational-intonation tools (src/ratios.py and
src/scale_builder.py) against their specification.

Embedding conventions:
* Python `Fraction` is `ℚ` (exact rational arithmetic in both).
* `math.log2` is applied only to positive rationals and its result is used
  only through `ceil`/`floor` and sign/threshold comparisons; these are
  modelled exactly by `Int.clog 2`, `Int.log 2` and the equivalences
  `log2 f < 0 ↔ f < 1`, `log2 f > 1 ↔ 2 < f`.  (The float rounding of
  `log2` can differ from the exact value only for fractions astronomically
  close to a power of two; no claim depends on such inputs.)
* Fallible Python code (`raise`, `ZeroDivisionError`, `KeyError`) is
  modelled with `Except PyError`.
* `sympy.factorint(m).keys()` is the set of prime divisors of `m`;
  `max(...keys())` is `(Nat.primeFactors m).max` (`none` when `m = 1`).
* Python dictionaries preserve insertion order, so they are modelled as
  association lists; Python `set` members are modelled as `Finset`.
* Colors are modelled by the exact parameters handed to
  `colorsys.hls_to_rgb`; the conversion to a hex string is part of the
  terminal-rendering layer that the specification places out of scope.
-/

namespace RIT

/-- Python-style errors raised by the embedded code. -/
inductive PyError where
  | zeroDivision
  | keyErrorNat (key : ℕ)
  | keyErrorStr (key : String)
  | missingBase (keys : List ℚ)
deriving DecidableEq

/-- Embeds `scale_builder.normalize`.  The source computes
`flog2 = log2(f)` and returns `f * 2 ** (ceil(flog2) + 1)` when
`flog2 < 0`, `f / 2 ** floor(flog2)` when `flog2 > 1`, and `f`
otherwise.  For positive `f`, `ceil (log2 f) = Int.clog 2 f`,
`floor (log2 f) = Int.log 2 f`, `log2 f < 0 ↔ f < 1` and
`log2 f > 1 ↔ 2 < f`. -/
def normalize (f : ℚ) : ℚ :=
  if f < 1 then f * 2 ^ (Int.clog 2 f + 1)
  else if 2 < f then f / 2 ^ (Int.log 2 f)
  else f

/-- Embeds the `Ratio` input type of scale_builder: either a raw integer
pair or an already-built exact fraction. -/
inductive Ratio where
  | pair (n d : ℤ)
  | frac (q : ℚ)
deriving DecidableEq

/-- Embeds `scale_builder.to_fraction`.  On a tuple the source runs
`Fraction(abs(ratio[0]), abs(ratio[1]))`, which raises
`ZeroDivisionError` when the denominator is `0` and otherwise silently
discards the signs; an exact fraction is returned unchanged. -/
def to_fraction : Ratio → Except PyError ℚ
  | .pair n d =>
      if d = 0 then .error .zeroDivision
      else .ok ((n.natAbs : ℚ) / (d.natAbs : ℚ))
  | .frac q => .ok q

/-- Embeds `ratios.get_prime_limit`: the largest key of
`factorint(ratio.numerator * ratio.denominator)`, or `None` when the
factorisation is empty. -/
def get_prime_limit (q : ℚ) : Option ℕ :=
  (Nat.primeFactors (q.num.natAbs * q.den)).max

/-- Python truthiness of `x or d` for `x : Optional[int]`: `None` and `0`
fall back to the default. -/
def or_else (x : Option ℕ) (d : ℕ) : ℕ :=
  match x with
  | none => d
  | some v => if v = 0 then d else v

/-- The octave-equivalence test of `ratios.classify_intervals`:
`(get_prime_limit(cross_ratio) or 2) == 2`. -/
def octave_match (cross : ℚ) : Prop :=
  or_else (get_prime_limit cross) 2 = 2

instance octave_match_dec : DecidablePred octave_match :=
  fun q => inferInstanceAs (Decidable (or_else (get_prime_limit q) 2 = 2))

/-- One iteration of the loop body of `ratios.classify_intervals`: scan
the existing delegates in insertion order, add the interval to the first
octave-equivalent class, or open a new class keyed by the interval. -/
def insert_interval (x : ℚ) : List (ℚ × Finset ℚ) → List (ℚ × Finset ℚ)
  | [] => [(x, {x})]
  | c :: cs =>
      if octave_match (x / c.1) then (c.1, insert x c.2) :: cs
      else c :: insert_interval x cs

/-- Embeds `ratios.classify_intervals` (the `defaultdict(set)` is an
insertion-ordered association list of delegate ↦ member set). -/
def classify_intervals (intervals : List ℚ) : List (ℚ × Finset ℚ) :=
  intervals.foldl (fun acc x => insert_interval x acc) []

/-! Evaluation helpers for `Int.log` and `Int.clog` at base 2. -/

theorem int_clog_eq_of {q : ℚ} {k : ℤ} (h0 : 0 < q)
    (h1 : (2:ℚ) ^ (k - 1) < q) (h2 : q ≤ (2:ℚ) ^ k) : Int.clog 2 q = k := by
  have hcast : ((2:ℕ):ℚ) = (2:ℚ) := by norm_num
  refine le_antisymm ?_ ?_
  · exact (Int.le_zpow_iff_clog_le one_lt_two h0).mp (by rw [hcast]; exact h2)
  · have h := (Int.zpow_lt_iff_lt_clog one_lt_two h0).mp (by rw [hcast]; exact h1)
    omega

theorem int_log_eq_of {q : ℚ} {k : ℤ} (h0 : 0 < q)
    (h1 : (2:ℚ) ^ k ≤ q) (h2 : q < (2:ℚ) ^ (k + 1)) : Int.log 2 q = k := by
  have hcast : ((2:ℕ):ℚ) = (2:ℚ) := by norm_num
  refine le_antisymm ?_ ?_
  · have h := (Int.lt_zpow_iff_log_lt one_lt_two h0).mp (by rw [hcast]; exact h2)
    omega
  · exact (Int.zpow_le_iff_le_log one_lt_two h0).mp (by rw [hcast]; exact h1)

/-- Claim C1: the code's `normalize` sends 7/2 to 7/4 as the spec says,
but it sends 1/3 to 1/3 (the spec demands 4/3) and 2 to 2 (violating
`normalize r < 2`): the exponent `ceil(log2 f) + 1` is wrong for
`f ≤ 1/2` and the branch guard `log2 f > 1` misses `f = 2`. -/
theorem normalize_scenario_b_eval :
    normalize (7/2) = 7/4 ∧ normalize (1/3) = 1/3 ∧ normalize 2 = 2 ∧
      ¬ (1 ≤ normalize (1/3) ∧ normalize 2 < 2) := by
  have hlog : Int.log 2 ((7:ℚ)/2) = 1 :=
    int_log_eq_of (by norm_num) (by norm_num) (by norm_num)
  have hclog : Int.clog 2 ((1:ℚ)/3) = -1 :=
    int_clog_eq_of (by norm_num) (by norm_num) (by norm_num)
  have h72 : normalize (7/2) = 7/4 := by
    unfold normalize
    rw [if_neg (by norm_num), if_pos (by norm_num), hlog]
    norm_num
  have h13 : normalize (1/3) = 1/3 := by
    unfold normalize
    rw [if_pos (by norm_num), hclog]
    norm_num
  have h2 : normalize 2 = 2 := by
    unfold normalize
    rw [if_neg (by norm_num), if_neg (by norm_num)]
  refine ⟨h72, h13, h2, ?_⟩
  rw [h13, h2]
  norm_num

/-- Claim C6: the code's `normalize` is not idempotent.  Evaluating at
1/5: `normalize (1/5) = 1/10` but `normalize (1/10) = 1/40`, so
applying `normalize` twice keeps shrinking the value. -/
theorem normalize_not_idempotent_eval :
    normalize (1/5) = 1/10 ∧ normalize (normalize (1/5)) = 1/40 ∧
      normalize (normalize (1/5)) ≠ normalize (1/5) := by
  have hclog5 : Int.clog 2 ((1:ℚ)/5) = -2 :=
    int_clog_eq_of (by norm_num) (by norm_num) (by norm_num)
  have hclog10 : Int.clog 2 ((1:ℚ)/10) = -3 :=
    int_clog_eq_of (by norm_num) (by norm_num) (by norm_num)
  have h5 : normalize (1/5) = 1/10 := by
    unfold normalize
    rw [if_pos (by norm_num), hclog5]
    norm_num
  have h10 : normalize ((1:ℚ)/10) = 1/40 := by
    unfold normalize
    rw [if_pos (by norm_num), hclog10]
    norm_num
  refine ⟨h5, by rw [h5, h10], by rw [h5, h10]; norm_num⟩

/-- Claim C8 counterexample: a ratio pair with a negative component is
accepted without any error — `to_fraction` silently takes absolute
values (`(-3, 2)` becomes `3/2`), so the ratio-construction path does
not abort on negative components. -/
theorem to_fraction_neg_counterexample :
    to_fraction (.pair (-3) 2) = .ok (3/2) := by
  simp only [to_fraction, if_neg (by norm_num : ¬ ((2:ℤ) = 0))]
  norm_num

/-- Claim C8 (amended): only a zero denominator aborts tuple-ratio
construction; negative components are silently replaced by their
absolute values, a zero numerator yields 0 without error, and exact
fractions are passed through unvalidated. -/
theorem to_fraction_spec :
    ∀ n d : ℤ,
      (d = 0 → to_fraction (.pair n d) = .error .zeroDivision) ∧
      (d ≠ 0 → to_fraction (.pair n d) = .ok ((n.natAbs : ℚ) / (d.natAbs : ℚ))) ∧
      (∀ q : ℚ, to_fraction (.frac q) = .ok q) := by
  intro n d
  refine ⟨fun h => ?_, fun h => ?_, fun q => rfl⟩
  · simp [to_fraction, h]
  · simp [to_fraction, h]

/-- Witness for the amended C8 statement at the concrete input (-3, 2). -/
theorem to_fraction_spec_witness :
    to_fraction (.pair (-3) 2) = .ok (((-3:ℤ).natAbs : ℚ) / ((2:ℤ).natAbs : ℚ)) :=
  (to_fraction_spec (-3) 2).2.1 (by norm_num)

/-! The tuning-graph builder of src/scale_builder.py. -/

/-- Embeds `scale_builder.Direction`. -/
inductive Direction where
  | up
  | down
deriving DecidableEq

/-- Embeds `scale_builder.TuningEdge` (its constructor converts the
interval to an exact fraction; conversion of an exact fraction is the
identity, so the stored interval is the given rational). -/
structure TuningEdge where
  interval : ℚ
  direction : Direction
deriving DecidableEq

/-- Embeds `TuningEdge.get_target_pitch_class` on an exact starting
fraction: multiply (UP) or divide (DOWN) by the edge interval, then
octave-normalize. -/
def get_target_pitch_class (edge : TuningEdge) (starting_fraction : ℚ) : ℚ :=
  match edge.direction with
  | .up => normalize (starting_fraction * edge.interval)
  | .down => normalize (starting_fraction / edge.interval)

/-- The observable ways a `tune_interval` call can return without
raising: committing the new pitch, skipping an already-present pitch
(with a printed notice), or a declined interactive confirmation. -/
inductive Outcome where
  | committed
  | duplicate_skip
  | declined
deriving DecidableEq

/-- Embeds `scale_builder.TuningSystem`: `recipe` is the
insertion-ordered dict from pitch class to its outgoing labelled edges,
`scale` the set of pitch classes (each Python `PitchCents` is determined
by its pitch; the rounded cents value is display-only). -/
structure TuningSystem where
  recipe : List (ℚ × List (TuningEdge × ℚ))
  scale : Finset ℚ

/-- Embeds `TuningSystem.__init__`: only the fundamental 1/1. -/
def init_tuning_system : TuningSystem :=
  { recipe := [(1, [])], scale := {1} }

/-- Helper for `self.recipe[start].append(...)`: append a value to the
edge list stored under an existing key. -/
def append_edge (recipe : List (ℚ × List (TuningEdge × ℚ))) (key : ℚ)
    (v : TuningEdge × ℚ) : List (ℚ × List (TuningEdge × ℚ)) :=
  recipe.map (fun kv => if kv.1 = key then (kv.1, kv.2 ++ [v]) else kv)

/-- Embeds `TuningSystem.tune_interval`.  The interactive
`input("Extend scale with new pitch? ...")` line is modelled by the
`accept_input` argument; only the literal reply y accepts.  The
candidate scale is computed as a copy before the confirmation and is
swapped in only on commit, exactly as in the source. -/
def tune_interval (ts : TuningSystem) (start interval : Ratio)
    (direction : Direction) (check_neighbors : Bool) (accept_input : String) :
    Except PyError (TuningSystem × Outcome) :=
  match to_fraction start with
  | .error e => .error e
  | .ok s =>
    match to_fraction interval with
    | .error e => .error e
    | .ok i =>
      if s ∉ ts.recipe.map Prod.fst then
        .error (.missingBase (ts.recipe.map Prod.fst))
      else
        let edge_tuned : TuningEdge := ⟨i, direction⟩
        let pitch_tuned := get_target_pitch_class edge_tuned s
        if pitch_tuned ∈ ts.recipe.map Prod.fst then
          .ok (ts, .duplicate_skip)
        else
          let extended_scale := insert pitch_tuned ts.scale
          if check_neighbors ∧ accept_input ≠ "y" then
            .ok (ts, .declined)
          else
            .ok ({ recipe := append_edge ts.recipe s (edge_tuned, pitch_tuned) ++
                     [(pitch_tuned, [])],
                   scale := extended_scale }, .committed)

/-- Claim C4: whenever `tune_interval` returns without committing —
because the target pitch class is already present, or because the
interactive confirmation was declined — the tuning system is returned
exactly as it was: no partially-committed state is observable. -/
theorem tune_interval_abort_preserves_state :
    ∀ (ts : TuningSystem) (start interval : Ratio) (direction : Direction)
      (check_neighbors : Bool) (accept_input : String)
      (ts' : TuningSystem) (o : Outcome),
      tune_interval ts start interval direction check_neighbors accept_input =
        .ok (ts', o) →
      o = .duplicate_skip ∨ o = .declined → ts' = ts := by
  intro ts start interval direction check_neighbors accept_input ts' o h ho
  unfold tune_interval at h
  dsimp only at h
  split at h
  · exact Except.noConfusion h
  · split at h
    · exact Except.noConfusion h
    · split at h
      · exact Except.noConfusion h
      · split at h
        · injection h with hpair
          injection hpair with h1 h2
          exact h1.symm
        · split at h
          · injection h with hpair
            injection hpair with h1 h2
            exact h1.symm
          · injection h with hpair
            injection hpair with h1 h2
            rcases ho with ho | ho <;> rw [ho] at h2 <;> exact Outcome.noConfusion h2

/-- Witness for C4: on the initial system, tuning the unison interval
from 1/1 targets the already-present pitch 1/1, is skipped, and leaves
the system unchanged. -/
theorem tune_interval_abort_witness :
    init_tuning_system = init_tuning_system ∧
      tune_interval init_tuning_system (.frac 1) (.frac 1) .up false ("n") =
        .ok (init_tuning_system, .duplicate_skip) := by
  have heval : tune_interval init_tuning_system (.frac 1) (.frac 1) .up false ("n") =
      .ok (init_tuning_system, .duplicate_skip) := by
    have h1 : normalize (1:ℚ) = 1 := by
      unfold normalize
      rw [if_neg (by norm_num), if_neg (by norm_num)]
    norm_num [tune_interval, to_fraction, init_tuning_system, get_target_pitch_class, h1]
  exact ⟨tune_interval_abort_preserves_state init_tuning_system (.frac 1) (.frac 1)
    .up false ("n") init_tuning_system .duplicate_skip heval (Or.inl rfl), heval⟩

/-- Claim C7: calling `tune_interval` with a start pitch class that
(after conversion to exact-ratio form) is not a key of the recipe fails
with the missing-base-pitch error reporting the current key set, and
produces no new state. -/
theorem tune_interval_missing_base :
    ∀ (ts : TuningSystem) (start interval : Ratio) (direction : Direction)
      (check_neighbors : Bool) (accept_input : String) (s i : ℚ),
      to_fraction start = .ok s → to_fraction interval = .ok i →
      s ∉ ts.recipe.map Prod.fst →
      tune_interval ts start interval direction check_neighbors accept_input =
        .error (.missingBase (ts.recipe.map Prod.fst)) := by
  intro ts start interval direction check_neighbors accept_input s i hs hi hmem
  unfold tune_interval
  rw [hs, hi]
  simp only [if_pos hmem]

/-- Witness for C7 (spec Scenario D): `tune_interval(5/4, 3/2, UP)` on a
graph containing only 1/1 fails with the missing-base-pitch error. -/
theorem tune_interval_missing_base_witness :
    tune_interval init_tuning_system (.frac (5/4)) (.frac (3/2)) .up false ("y") =
      .error (.missingBase [1]) := by
  have h := tune_interval_missing_base init_tuning_system (.frac (5/4)) (.frac (3/2))
    .up false ("y") (5/4) (3/2) rfl rfl
    (by simp [init_tuning_system]; norm_num)
  simpa [init_tuning_system] using h

/-- The tuning system after `tune_interval(1/1, 3/2, UP)` on the
initial system. -/
def scenario_c_step1 : TuningSystem :=
  { recipe := [(1, [(⟨3/2, .up⟩, 3/2)]), (3/2, [])], scale := {3/2, 1} }

/-- The tuning system the code actually produces after the further call
`tune_interval(3/2, 4/3, UP)`: because `normalize 2 = 2` (see C1), the
pitch 2/1 is considered new and committed. -/
def scenario_c_step2 : TuningSystem :=
  { recipe := [(1, [(⟨3/2, .up⟩, 3/2)]), (3/2, [(⟨4/3, .up⟩, 2)]), (2, [])],
    scale := {2, 3/2, 1} }

/-- Claim C2: the first step matches the spec (keys 1/1 and 3/2), but
the second `tune_interval(3/2, 4/3, UP)` computes the target
`normalize (3/2 * 4/3) = normalize 2 = 2` (not 1/1 as the spec says),
does not detect it as present, and commits a third key 2/1. -/
theorem tune_scenario_c_eval :
    tune_interval init_tuning_system (.frac 1) (.frac (3/2)) .up false ("y") =
        .ok (scenario_c_step1, .committed) ∧
      scenario_c_step1.recipe.map Prod.fst = [1, 3/2] ∧
      tune_interval scenario_c_step1 (.frac (3/2)) (.frac (4/3)) .up false ("y") =
        .ok (scenario_c_step2, .committed) ∧
      scenario_c_step2.recipe.map Prod.fst = [1, 3/2, 2] := by
  have hn1 : normalize ((3:ℚ)/2) = 3/2 := by
    unfold normalize
    rw [if_neg (by norm_num), if_neg (by norm_num)]
  have hn2 : normalize (2:ℚ) = 2 := by
    unfold normalize
    rw [if_neg (by norm_num), if_neg (by norm_num)]
  refine ⟨?_, by simp [scenario_c_step1], ?_, by simp [scenario_c_step2]⟩
  · norm_num [tune_interval, to_fraction, init_tuning_system, get_target_pitch_class,
      hn1, append_edge, scenario_c_step1]
  · norm_num [tune_interval, to_fraction, scenario_c_step1, get_target_pitch_class,
      hn2, append_edge, scenario_c_step2]

/-! Characterisation of the octave-equivalence test: for positive
rationals, `(get_prime_limit(q) or 2) == 2` holds exactly when `q` is an
integer power of two. -/

theorem or_else_eq_two_iff (x : Option ℕ) (hx : ∀ v, x = some v → v ≠ 0) :
    or_else x 2 = 2 ↔ (x = none ∨ x = some 2) := by
  cases x with
  | none => simp [or_else]
  | some v =>
      have hv0 : v ≠ 0 := hx v rfl
      simp [or_else, hv0]

theorem octave_match_iff_forall (q : ℚ) :
    octave_match q ↔ ∀ p ∈ Nat.primeFactors (q.num.natAbs * q.den), p = 2 := by
  have hne : ∀ v, (Nat.primeFactors (q.num.natAbs * q.den)).max = some v → v ≠ 0 :=
    fun v hv => (Nat.prime_of_mem_primeFactors (Finset.mem_of_max hv)).ne_zero
  unfold octave_match get_prime_limit
  rw [or_else_eq_two_iff _ hne]
  constructor
  · rintro (hmax | hmax) p hp
    · rw [Finset.max_eq_bot.mp hmax] at hp
      exact absurd hp (Finset.not_mem_empty p)
    · have hple : (p : WithBot ℕ) ≤ some 2 := hmax ▸ Finset.le_max hp
      have hp2 : p ≤ 2 := WithBot.coe_le_coe.mp hple
      exact le_antisymm hp2 (Nat.prime_of_mem_primeFactors hp).two_le
  · intro hall
    rcases Option.eq_none_or_eq_some ((Nat.primeFactors (q.num.natAbs * q.den)).max)
      with hmax | ⟨v, hmax⟩
    · exact Or.inl hmax
    · exact Or.inr (hmax.trans (congrArg some (hall v (Finset.mem_of_max hmax))))

theorem primeFactors_all_two_iff {m : ℕ} (hm : m ≠ 0) :
    (∀ p ∈ m.primeFactors, p = 2) ↔ ∃ a : ℕ, m = 2 ^ a := by
  constructor
  · intro hall
    refine ⟨m.factorization 2, ?_⟩
    have hcompl : ordCompl[2] m = 1 := by
      by_contra h1
      obtain ⟨p, hp, hpdvd⟩ := Nat.exists_prime_and_dvd h1
      have hpm : p ∣ m := hpdvd.trans (Nat.ordCompl_dvd m 2)
      have hp2 : p = 2 := hall p (Nat.mem_primeFactors.mpr ⟨hp, hpm, hm⟩)
      exact Nat.not_dvd_ordCompl Nat.prime_two hm (hp2 ▸ hpdvd)
    have := Nat.ordProj_mul_ordCompl_eq_self m 2
    rw [hcompl, mul_one] at this
    exact this.symm
  · rintro ⟨a, rfl⟩ p hp
    obtain ⟨hprime, hdvd, -⟩ := Nat.mem_primeFactors.mp hp
    exact (Nat.prime_dvd_prime_iff_eq hprime Nat.prime_two).mp
      (hprime.dvd_of_dvd_pow hdvd)

theorem octave_match_iff_pow2 {q : ℚ} (hq : 0 < q) :
    octave_match q ↔ ∃ k : ℤ, q = 2 ^ k := by
  have hnum0 : 0 < q.num := Rat.num_pos.mpr hq
  have hn0 : q.num.natAbs ≠ 0 := Int.natAbs_ne_zero.mpr hnum0.ne'
  have hd0 : q.den ≠ 0 := q.den_nz
  have hden0 : ((q.den : ℚ)) ≠ 0 := Nat.cast_ne_zero.mpr hd0
  have hm : q.num.natAbs * q.den ≠ 0 := mul_ne_zero hn0 hd0
  have hnumq : ((q.num.natAbs : ℤ) : ℚ) = (q.num : ℚ) := by
    rw [Int.natAbs_of_nonneg hnum0.le]
  rw [octave_match_iff_forall, primeFactors_all_two_iff hm]
  constructor
  · rintro ⟨a, ha⟩
    obtain ⟨i, -, hi⟩ := (Nat.dvd_prime_pow Nat.prime_two).mp
      (⟨q.den, ha.symm⟩ : q.num.natAbs ∣ 2 ^ a)
    obtain ⟨j, -, hj⟩ := (Nat.dvd_prime_pow Nat.prime_two).mp
      (⟨q.num.natAbs, by rw [← ha]; ring⟩ : q.den ∣ 2 ^ a)
    refine ⟨(i : ℤ) - j, ?_⟩
    have hqeq : q = (q.num.natAbs : ℚ) / (q.den : ℚ) := by
      rw [show ((q.num.natAbs : ℚ)) = ((q.num.natAbs : ℤ) : ℚ) from
        (Int.cast_natCast _).symm, hnumq, Rat.num_div_den]
    rw [hqeq, hi, hj, zpow_sub₀ (two_ne_zero), zpow_natCast, zpow_natCast]
    push_cast
    ring
  · rintro ⟨k, hk⟩
    set b : ℕ := k.toNat with hb
    set c : ℕ := (-k).toNat with hc
    have hq2 : q * 2 ^ c = 2 ^ b := by
      rw [hk, ← zpow_natCast (2:ℚ) c, ← zpow_natCast (2:ℚ) b,
        ← zpow_add₀ (two_ne_zero : (2:ℚ) ≠ 0)]
      congr 1
      omega
    have hnum_den : (q.num : ℚ) = q * (q.den : ℚ) :=
      (div_eq_iff hden0).mp (Rat.num_div_den q)
    have hratq : (q.num : ℚ) * 2 ^ c = 2 ^ b * (q.den : ℚ) := by
      rw [hnum_den]
      calc q * (q.den : ℚ) * 2 ^ c = (q * 2 ^ c) * (q.den : ℚ) := by ring
        _ = 2 ^ b * (q.den : ℚ) := by rw [hq2]
    have hint : q.num * 2 ^ c = 2 ^ b * (q.den : ℤ) := by exact_mod_cast hratq
    have hnat : q.num.natAbs * 2 ^ c = 2 ^ b * q.den := by
      have habs := congrArg Int.natAbs hint
      rwa [Int.natAbs_mul, Int.natAbs_mul, Int.natAbs_pow, Int.natAbs_pow,
        (by rfl : (2:ℤ).natAbs = 2), Int.natAbs_ofNat] at habs
    have hndvd : q.num.natAbs ∣ 2 ^ b :=
      Nat.Coprime.dvd_of_dvd_mul_right q.reduced ⟨2 ^ c, hnat.symm⟩
    have hddvd : q.den ∣ 2 ^ c := by
      refine Nat.Coprime.dvd_of_dvd_mul_right q.reduced.symm ⟨2 ^ b, ?_⟩
      calc (2:ℕ) ^ c * q.num.natAbs = q.num.natAbs * 2 ^ c := mul_comm _ _
        _ = 2 ^ b * q.den := hnat
        _ = q.den * 2 ^ b := mul_comm _ _
    obtain ⟨i, -, hi⟩ := (Nat.dvd_prime_pow Nat.prime_two).mp hndvd
    obtain ⟨j, -, hj⟩ := (Nat.dvd_prime_pow Nat.prime_two).mp hddvd
    exact ⟨i + j, by rw [hi, hj, pow_add]⟩

/-- Reflexivity of the code's octave-equivalence test on positive
rationals. -/
theorem octave_match_refl {x : ℚ} (hx : 0 < x) : octave_match (x / x) :=
  (octave_match_iff_pow2 (div_pos hx hx)).mpr
    ⟨0, by rw [div_self hx.ne', zpow_zero]⟩

/-- Symmetry of the code's octave-equivalence test on positive
rationals. -/
theorem octave_match_symm {x y : ℚ} (hx : 0 < x) (hy : 0 < y)
    (h : octave_match (x / y)) : octave_match (y / x) := by
  obtain ⟨k, hk⟩ := (octave_match_iff_pow2 (div_pos hx hy)).mp h
  exact (octave_match_iff_pow2 (div_pos hy hx)).mpr
    ⟨-k, by rw [zpow_neg, ← hk, inv_div]⟩

/-- Transitivity of the code's octave-equivalence test on positive
rationals. -/
theorem octave_match_trans {x y z : ℚ} (hx : 0 < x) (hy : 0 < y) (hz : 0 < z)
    (h1 : octave_match (x / y)) (h2 : octave_match (y / z)) :
    octave_match (x / z) := by
  obtain ⟨k, hk⟩ := (octave_match_iff_pow2 (div_pos hx hy)).mp h1
  obtain ⟨l, hl⟩ := (octave_match_iff_pow2 (div_pos hy hz)).mp h2
  refine (octave_match_iff_pow2 (div_pos hx hz)).mpr ⟨k + l, ?_⟩
  have hxz : x / z = (x / y) * (y / z) := by
    field_simp
  rw [hxz, hk, hl, ← zpow_add₀ (two_ne_zero : (2:ℚ) ≠ 0)]

/-- Bridge between the code's truthiness test and the claim's wording
(prime limit undefined or equal to 2). -/
theorem octave_match_iff_none_or_two (q : ℚ) :
    octave_match q ↔
      (get_prime_limit q = none ∨ get_prime_limit q = some 2) := by
  have hne : ∀ v, get_prime_limit q = some v → v ≠ 0 :=
    fun v hv => (Nat.prime_of_mem_primeFactors (Finset.mem_of_max hv)).ne_zero
  unfold octave_match
  exact or_else_eq_two_iff _ hne

/-- Structural description of one classification step: either the
interval joins the first octave-equivalent class (everything before it
rejected), or no delegate matches and a fresh class is appended. -/
theorem insert_interval_spec (x : ℚ) (cs : List (ℚ × Finset ℚ)) :
    (∃ pre c post, cs = pre ++ c :: post ∧
      (∀ c' ∈ pre, ¬ octave_match (x / c'.1)) ∧ octave_match (x / c.1) ∧
      insert_interval x cs = pre ++ (c.1, insert x c.2) :: post) ∨
    ((∀ c ∈ cs, ¬ octave_match (x / c.1)) ∧
      insert_interval x cs = cs ++ [(x, {x})]) := by
  induction cs with
  | nil => exact Or.inr ⟨by simp, rfl⟩
  | cons c cs ih =>
    by_cases h : octave_match (x / c.1)
    · refine Or.inl ⟨[], c, cs, rfl, by simp, h, ?_⟩
      rw [insert_interval, if_pos h]
      rfl
    · rcases ih with ⟨pre, c0, post, heq, hpre, hc0, hres⟩ | ⟨hall, hres⟩
      · refine Or.inl ⟨c :: pre, c0, post, by rw [heq, List.cons_append], ?_, hc0, ?_⟩
        · intro c' hc'
          rcases List.mem_cons.mp hc' with rfl | hc'
          · exact h
          · exact hpre c' hc'
        · rw [insert_interval, if_neg h, hres]
          rfl
      · refine Or.inr ⟨?_, ?_⟩
        · intro c' hc'
          rcases List.mem_cons.mp hc' with rfl | hc'
          · exact h
          · exact hall c' hc'
        · rw [insert_interval, if_neg h, hres]
          rfl

/-- Invariant maintained by the classification loop: classes hold
positive ratios, each delegate belongs to its own class, members are
octave-equivalent to their delegate, and no two delegates are
octave-equivalent to each other. -/
structure ClassesOk (classes : List (ℚ × Finset ℚ)) : Prop where
  pos : ∀ c ∈ classes, 0 < c.1 ∧ ∀ y ∈ c.2, (0:ℚ) < y
  self_mem : ∀ c ∈ classes, c.1 ∈ c.2
  members_rel : ∀ c ∈ classes, ∀ y ∈ c.2, octave_match (y / c.1)
  delegates_indep : (classes.map Prod.fst).Pairwise
    (fun d e => ¬ octave_match (d / e) ∧ ¬ octave_match (e / d))

theorem insert_interval_ok {acc : List (ℚ × Finset ℚ)} {x : ℚ} (hx : 0 < x)
    (hok : ClassesOk acc) :
    ClassesOk (insert_interval x acc) ∧
    (∃ c ∈ insert_interval x acc, x ∈ c.2) ∧
    (∀ c ∈ acc, ∃ c' ∈ insert_interval x acc, c.2 ⊆ c'.2) ∧
    (∀ c' ∈ insert_interval x acc, ∀ y ∈ c'.2, y = x ∨ ∃ c ∈ acc, y ∈ c.2) := by
  rcases insert_interval_spec x acc with
    ⟨pre, c, post, heq, hpre, hc, hres⟩ | ⟨hall, hres⟩
  · have hc_mem : c ∈ acc := by
      rw [heq]
      exact List.mem_append_right _ (List.mem_cons_self c post)
    have hmem_old : ∀ a, a ∈ pre ∨ a ∈ post → a ∈ acc := by
      intro a ha
      rw [heq]
      rcases ha with ha | ha
      · exact List.mem_append_left _ ha
      · exact List.mem_append_right _ (List.mem_cons_of_mem c ha)
    have hmem_new : ∀ a, a ∈ insert_interval x acc →
        (a ∈ pre ∨ a ∈ post) ∨ a = (c.1, insert x c.2) := by
      intro a ha
      rw [hres] at ha
      rcases List.mem_append.mp ha with ha | ha
      · exact Or.inl (Or.inl ha)
      · rcases List.mem_cons.mp ha with ha | ha
        · exact Or.inr ha
        · exact Or.inl (Or.inr ha)
    have hupd_mem : (c.1, insert x c.2) ∈ insert_interval x acc := by
      rw [hres]
      exact List.mem_append_right _ (List.mem_cons_self _ post)
    have hcpos := hok.pos c hc_mem
    refine ⟨⟨?_, ?_, ?_, ?_⟩, ⟨(c.1, insert x c.2), hupd_mem, Finset.mem_insert_self x _⟩,
      ?_, ?_⟩
    · intro a ha
      rcases hmem_new a ha with ha | rfl
      · exact hok.pos a (hmem_old a ha)
      · refine ⟨hcpos.1, ?_⟩
        intro y hy
        rcases Finset.mem_insert.mp hy with rfl | hy
        · exact hx
        · exact hcpos.2 y hy
    · intro a ha
      rcases hmem_new a ha with ha | rfl
      · exact hok.self_mem a (hmem_old a ha)
      · exact Finset.mem_insert_of_mem (hok.self_mem c hc_mem)
    · intro a ha y hy
      rcases hmem_new a ha with ha | rfl
      · exact hok.members_rel a (hmem_old a ha) y hy
      · rcases Finset.mem_insert.mp hy with rfl | hy
        · exact hc
        · exact hok.members_rel c hc_mem y hy
    · have hmap : (insert_interval x acc).map Prod.fst = acc.map Prod.fst := by
        rw [hres, heq]
        simp
      rw [hmap]
      exact hok.delegates_indep
    · intro c0 hc0
      rw [heq] at hc0
      rcases List.mem_append.mp hc0 with h0 | h0
      · exact ⟨c0, by rw [hres]; exact List.mem_append_left _ h0, subset_rfl⟩
      · rcases List.mem_cons.mp h0 with rfl | h0
        · exact ⟨(c0.1, insert x c0.2), hupd_mem, Finset.subset_insert x _⟩
        · exact ⟨c0, by
            rw [hres]
            exact List.mem_append_right _ (List.mem_cons_of_mem _ h0), subset_rfl⟩
    · intro c' hc' y hy
      rcases hmem_new c' hc' with h0 | rfl
      · exact Or.inr ⟨c', hmem_old c' h0, hy⟩
      · rcases Finset.mem_insert.mp hy with rfl | hy
        · exact Or.inl rfl
        · exact Or.inr ⟨c, hc_mem, hy⟩
  · have hnew_mem : (x, ({x} : Finset ℚ)) ∈ insert_interval x acc := by
      rw [hres]
      exact List.mem_append_right _ (List.mem_cons_self _ [])
    have hmem_new : ∀ a, a ∈ insert_interval x acc → a ∈ acc ∨ a = (x, ({x} : Finset ℚ)) := by
      intro a ha
      rw [hres] at ha
      rcases List.mem_append.mp ha with ha | ha
      · exact Or.inl ha
      · rcases List.mem_cons.mp ha with ha | ha
        · exact Or.inr ha
        · exact absurd ha (List.not_mem_nil a)
    refine ⟨⟨?_, ?_, ?_, ?_⟩, ⟨(x, {x}), hnew_mem, Finset.mem_singleton_self x⟩, ?_, ?_⟩
    · intro a ha
      rcases hmem_new a ha with ha | rfl
      · exact hok.pos a ha
      · exact ⟨hx, fun y hy => (Finset.mem_singleton.mp hy) ▸ hx⟩
    · intro a ha
      rcases hmem_new a ha with ha | rfl
      · exact hok.self_mem a ha
      · exact Finset.mem_singleton_self x
    · intro a ha y hy
      rcases hmem_new a ha with ha | rfl
      · exact hok.members_rel a ha y hy
      · rw [Finset.mem_singleton.mp hy]
        exact octave_match_refl hx
    · have hmap : (insert_interval x acc).map Prod.fst = acc.map Prod.fst ++ [x] := by
        rw [hres]
        simp
      rw [hmap, List.pairwise_append]
      refine ⟨hok.delegates_indep, List.pairwise_singleton _ _, ?_⟩
      intro d hd x' hx'
      rw [List.mem_singleton.mp hx']
      obtain ⟨c0, hc0, rfl⟩ := List.mem_map.mp hd
      have hd0 : 0 < c0.1 := (hok.pos c0 hc0).1
      have hnx : ¬ octave_match (x / c0.1) := hall c0 hc0
      exact ⟨fun hdx => hnx (octave_match_symm hd0 hx hdx), hnx⟩
    · intro c0 hc0
      exact ⟨c0, by rw [hres]; exact List.mem_append_left _ hc0, subset_rfl⟩
    · intro c' hc' y hy
      rcases hmem_new c' hc' with h0 | rfl
      · exact Or.inr ⟨c', h0, hy⟩
      · exact Or.inl (Finset.mem_singleton.mp hy)

theorem classify_fold_ok (intervals : List ℚ) :
    ∀ acc : List (ℚ × Finset ℚ),
      (∀ x ∈ intervals, 0 < x) → ClassesOk acc →
      ClassesOk (intervals.foldl (fun a x => insert_interval x a) acc) ∧
      (∀ c ∈ acc, ∃ c' ∈ intervals.foldl (fun a x => insert_interval x a) acc,
        c.2 ⊆ c'.2) ∧
      (∀ x ∈ intervals, ∃ c ∈ intervals.foldl (fun a x => insert_interval x a) acc,
        x ∈ c.2) ∧
      (∀ c ∈ intervals.foldl (fun a x => insert_interval x a) acc, ∀ y ∈ c.2,
        y ∈ intervals ∨ ∃ c0 ∈ acc, y ∈ c0.2) := by
  induction intervals with
  | nil =>
    intro acc hpos hok
    exact ⟨hok, fun c hc => ⟨c, hc, subset_rfl⟩, by simp,
      fun c hc y hy => Or.inr ⟨c, hc, hy⟩⟩
  | cons x xs ih =>
    intro acc hpos hok
    simp only [List.foldl_cons]
    have hx : 0 < x := hpos x (List.mem_cons_self x xs)
    obtain ⟨hok', hxmem, hmono, horig⟩ := insert_interval_ok hx hok
    obtain ⟨hokf, hmonof, hcovf, horigf⟩ := ih (insert_interval x acc)
      (fun y hy => hpos y (List.mem_cons_of_mem _ hy)) hok'
    refine ⟨hokf, ?_, ?_, ?_⟩
    · intro c hc
      obtain ⟨c', hc', hsub⟩ := hmono c hc
      obtain ⟨c'', hc'', hsub'⟩ := hmonof c' hc'
      exact ⟨c'', hc'', hsub.trans hsub'⟩
    · intro y hy
      rcases List.mem_cons.mp hy with rfl | hy
      · obtain ⟨c, hc, hyc⟩ := hxmem
        obtain ⟨c', hc', hsub⟩ := hmonof c hc
        exact ⟨c', hc', hsub hyc⟩
      · exact hcovf y hy
    · intro c hc y hy
      rcases horigf c hc y hy with hyxs | ⟨c0, hc0, hyc0⟩
      · exact Or.inl (List.mem_cons_of_mem _ hyxs)
      · rcases horig c0 hc0 y hyc0 with rfl | ⟨c1, hc1, hyc1⟩
        · exact Or.inl (List.mem_cons_self y xs)
        · exact Or.inr ⟨c1, hc1, hyc1⟩

/-- Two classes of a well-formed classification that contain
octave-equivalent members are the same class. -/
theorem classes_ok_eq_of_equiv {classes : List (ℚ × Finset ℚ)}
    (hok : ClassesOk classes) {c c' : ℚ × Finset ℚ}
    (hc : c ∈ classes) (hc' : c' ∈ classes) {x y : ℚ}
    (hx : x ∈ c.2) (hy : y ∈ c'.2) (hxy : octave_match (x / y)) : c = c' := by
  by_contra hne
  have hpairs : classes.Pairwise (fun a b : ℚ × Finset ℚ =>
      ¬ octave_match (a.1 / b.1) ∧ ¬ octave_match (b.1 / a.1)) :=
    List.pairwise_map.mp hok.delegates_indep
  have hS := hpairs.forall (fun a b h => ⟨h.2, h.1⟩) hc hc' hne
  have hcpos := hok.pos c hc
  have hcpos' := hok.pos c' hc'
  have hx0 : 0 < x := hcpos.2 x hx
  have hy0 : 0 < y := hcpos'.2 y hy
  have h1 : octave_match (x / c.1) := hok.members_rel c hc x hx
  have h2 : octave_match (y / c'.1) := hok.members_rel c' hc' y hy
  have h3 : octave_match (c.1 / x) := octave_match_symm hx0 hcpos.1 h1
  have h4 : octave_match (c.1 / y) := octave_match_trans hcpos.1 hx0 hy0 h3 hxy
  have h5 : octave_match (c.1 / c'.1) :=
    octave_match_trans hcpos.1 hy0 hcpos'.1 h4 h2
  exact hS.1 h5

/-- Claim C3: `classify_intervals` partitions any list of positive
intervals — every interval lies in exactly one class, and two intervals
share a class exactly when the prime limit of their quotient is
undefined or 2 — and on `[1/1, 2/1, 3/2]` it yields the classes
`{1/1, 2/1}` (delegate 1/1) and `{3/2}` (delegate 3/2). -/
theorem classify_intervals_partition :
    (∀ intervals : List ℚ, (∀ x ∈ intervals, 0 < x) →
      (∀ x ∈ intervals, ∃ c, (c ∈ classify_intervals intervals ∧ x ∈ c.2) ∧
        ∀ c', c' ∈ classify_intervals intervals → x ∈ c'.2 → c' = c) ∧
      (∀ x ∈ intervals, ∀ y ∈ intervals,
        ((∃ c ∈ classify_intervals intervals, x ∈ c.2 ∧ y ∈ c.2) ↔
          (get_prime_limit (x / y) = none ∨ get_prime_limit (x / y) = some 2)))) ∧
    classify_intervals [1, 2, 3/2] = [(1, {1, 2}), (3/2, {3/2})] := by
  constructor
  · intro intervals hpos
    have hbase : ClassesOk ([] : List (ℚ × Finset ℚ)) :=
      ⟨by simp, by simp, by simp, by simp⟩
    obtain ⟨hok, -, hcov, -⟩ := classify_fold_ok intervals [] hpos hbase
    constructor
    · intro x hx
      have hx0 : 0 < x := hpos x hx
      obtain ⟨c, hc, hxc⟩ := hcov x hx
      exact ⟨c, ⟨hc, hxc⟩, fun c' hc' hxc' =>
        classes_ok_eq_of_equiv hok hc' hc hxc' hxc (octave_match_refl hx0)⟩
    · intro x hx y hy
      constructor
      · rintro ⟨c, hc, hxc, hyc⟩
        have hcpos := hok.pos c hc
        have hx0 : 0 < x := hcpos.2 x hxc
        have hy0 : 0 < y := hcpos.2 y hyc
        have h1 : octave_match (x / c.1) := hok.members_rel c hc x hxc
        have h2 : octave_match (c.1 / y) :=
          octave_match_symm hy0 hcpos.1 (hok.members_rel c hc y hyc)
        exact (octave_match_iff_none_or_two _).mp
          (octave_match_trans hx0 hcpos.1 hy0 h1 h2)
      · intro hlim
        obtain ⟨c, hc, hxc⟩ := hcov x hx
        obtain ⟨c', hc', hyc⟩ := hcov y hy
        have hceq : c = c' := classes_ok_eq_of_equiv hok hc hc' hxc hyc
          ((octave_match_iff_none_or_two _).mpr hlim)
        exact ⟨c, hc, hxc, by rw [hceq]; exact hyc⟩
  · have om21 : octave_match ((2:ℚ) / 1) := by
      rw [show ((2:ℚ)/1) = 2 by norm_num]
      exact (octave_match_iff_pow2 (by norm_num)).mpr ⟨1, by norm_num⟩
    have h6 : ((3/2:ℚ).num.natAbs * (3/2:ℚ).den) = 6 := by norm_num
    have hpf6 : Nat.primeFactors 6 = {2, 3} := by
      rw [show (6:ℕ) = 2 * 3 from rfl,
        Nat.primeFactors_mul (by norm_num) (by norm_num),
        Nat.Prime.primeFactors (by norm_num), Nat.Prime.primeFactors (by norm_num)]
      rfl
    have nom32 : ¬ octave_match ((3:ℚ)/2 / 1) := by
      rw [show ((3:ℚ)/2 / 1) = 3/2 by norm_num]
      intro hom
      have h3 := (octave_match_iff_forall _).mp hom 3 (by rw [h6, hpf6]; simp)
      norm_num at h3
    show classify_intervals [(1:ℚ), 2, 3/2] = [(1, {1, 2}), (3/2, {3/2})]
    unfold classify_intervals
    rw [List.foldl_cons, List.foldl_cons, List.foldl_cons, List.foldl_nil]
    rw [show insert_interval (1:ℚ) [] = [(1, {1})] from rfl]
    rw [insert_interval, if_pos om21]
    rw [insert_interval, if_neg nom32]
    rw [show insert_interval ((3:ℚ)/2) [] = [(3/2, {3/2})] from rfl]
    rw [Finset.pair_comm]

/-- Witness for C3: applying the partition theorem to the concrete list
`[1, 2, 3/2]`, the intervals 2/1 and 1/1 share a class, so the prime
limit of their quotient is undefined or 2. -/
theorem classify_intervals_partition_witness :
    get_prime_limit ((2:ℚ) / 1) = none ∨ get_prime_limit ((2:ℚ) / 1) = some 2 := by
  have h := (classify_intervals_partition.1 [1, 2, 3/2]
    (by intro x hx; simp at hx; rcases hx with rfl | rfl | rfl <;> norm_num)).2
    2 (by simp) 1 (by simp)
  refine h.mp ⟨(1, {1, 2}), ?_, ?_, ?_⟩
  · rw [classify_intervals_partition.2]
    simp
  · simp
  · simp

/-! The color-assignment engine of src/ratios.py. -/

/-- A display color as the source builds it: the hex string
produced by the format `#RRGGBB` over the three 8-bit channels
`int(c * 255)`.  That format is injective on the channel triple, so a
color is modelled by its quantized red/green/blue values; the decimal
float literals of the source are modelled as the exact rationals they
denote.  (`int` truncates toward zero, which on the nonnegative channel
values returned by `hls_to_rgb` is the floor.) -/
structure Color where
  red : ℤ
  green : ℤ
  blue : ℤ
deriving DecidableEq

/-- The local `m2` of `colorsys.hls_to_rgb`. -/
def hls_m2 (l s : ℚ) : ℚ :=
  if l ≤ 1/2 then l * (1 + s) else l + s - l * s

/-- Embeds the helper `colorsys._v(m1, m2, hue)`; its `hue % 1.0` is
`Int.fract`. -/
def hls_value (m1 m2 hue : ℚ) : ℚ :=
  if Int.fract hue < 1/6 then m1 + (m2 - m1) * Int.fract hue * 6
  else if Int.fract hue < 1/2 then m2
  else if Int.fract hue < 2/3 then m1 + (m2 - m1) * (2/3 - Int.fract hue) * 6
  else m1

/-- Embeds `colorsys.hls_to_rgb`. -/
def hls_to_rgb (h l s : ℚ) : ℚ × ℚ × ℚ :=
  if s = 0 then (l, l, l)
  else
    (hls_value (2 * l - hls_m2 l s) (hls_m2 l s) (h + 1/3),
     hls_value (2 * l - hls_m2 l s) (hls_m2 l s) h,
     hls_value (2 * l - hls_m2 l s) (hls_m2 l s) (h - 1/3))

/-- The source's `int(c * 255)` quantization of each channel, followed
by the injective hex formatting. -/
def hex_of_rgb (rgb : ℚ × ℚ × ℚ) : Color :=
  ⟨⌊rgb.1 * 255⌋, ⌊rgb.2.1 * 255⌋, ⌊rgb.2.2 * 255⌋⟩

/-- One swept hue of `generate_rich_colors`:
`base_hue + ((i / (n - 1)) * 2 - 1) * hue_range`. -/
def sweep_hue (base_hue hue_range : ℚ) (n i : ℕ) : ℚ :=
  base_hue + (((i:ℚ) / ((n:ℚ) - 1)) * 2 - 1) * hue_range

/-- One generated color: the swept hue at lightness 1/2 and
saturation 1, quantized to its hex value. -/
def rich_color (hue : ℚ) : Color :=
  hex_of_rgb (hls_to_rgb hue (1/2) 1)

/-- Embeds `ratios.generate_rich_colors`.  With a defined base hue the
source builds, for each `i < n`, the quantized color of the swept hue
at lightness 1/2 and saturation 1; the division `i / (n - 1)` raises
`ZeroDivisionError` exactly when the loop runs with `n = 1`, which is
hoisted here into the guard.  With base hue `None` it builds `n` copies
of the quantized dark grey `hls_to_rgb(0.0, 0.3, 0.0)`. -/
def generate_rich_colors (base_hue : Option ℚ) (n : ℕ) (hue_range : ℚ) :
    Except PyError (List Color) :=
  match base_hue with
  | some h =>
      if n = 1 then .error .zeroDivision
      else .ok ((List.range n).map (fun (i : ℕ) =>
        rich_color (sweep_hue h hue_range n i)))
  | none => .ok ((List.range n).map (fun _ => hex_of_rgb (hls_to_rgb 0 (3/10) 0)))

/-- Embeds the `LIMIT_COLORS` table: the eight named prime limits. -/
def LIMIT_COLORS (p : ℕ) : Option String :=
  if p = 2 then some ("dark_grey")
  else if p = 3 then some ("blue")
  else if p = 5 then some ("yellow")
  else if p = 7 then some ("green")
  else if p = 11 then some ("red")
  else if p = 13 then some ("cyan")
  else if p = 17 then some ("orange")
  else if p = 19 then some ("magenta")
  else none

/-- Embeds the `COLORS_TO_HUES` table (grey has no hue). -/
def COLORS_TO_HUES (color : String) : Option (Option ℚ) :=
  if color = "dark_grey" then some none
  else if color = "red" then some (some 0)
  else if color = "orange" then some (some (83/1000))
  else if color = "yellow" then some (some (167/1000))
  else if color = "green" then some (some (333/1000))
  else if color = "cyan" then some (some (1/2))
  else if color = "blue" then some (some (667/1000))
  else if color = "magenta" then some (some (833/1000))
  else none

/-- The inner double loop of `assign_colors`: for each (delegate,
color) pair in turn, paint every member of the delegate's class. -/
def assign_pairs (ci : ℚ → Finset ℚ) (acc : ℚ → Option Color) :
    List (ℚ × Color) → (ℚ → Option Color)
  | [] => acc
  | (d, col) :: rest =>
      assign_pairs ci (fun x => if x ∈ ci d then some col else acc x) rest

/-- The outer loop of `assign_colors` over the prime-limit groups
(the two table lookups raise `KeyError` on a missing key). -/
def assign_groups (ci : ℚ → Finset ℚ) :
    List (ℕ × List ℚ) → (ℚ → Option Color) → Except PyError (ℚ → Option Color)
  | [], acc => .ok acc
  | (prime_limit, delegates) :: rest, acc =>
      match LIMIT_COLORS prime_limit with
      | none => .error (.keyErrorNat prime_limit)
      | some color_name =>
          match COLORS_TO_HUES color_name with
          | none => .error (.keyErrorStr color_name)
          | some prime_hue =>
              match generate_rich_colors prime_hue delegates.length (1/5) with
              | .error e => .error e
              | .ok prime_colors =>
                  assign_groups ci rest
                    (assign_pairs ci acc (delegates.zip prime_colors))

/-- Embeds `ratios.assign_colors`: `classified_intervals` is the
delegate ↦ member-set mapping (a `defaultdict`, so a total function),
`classified_delegates` the prime-limit ↦ delegates grouping, and the
result the interval ↦ color dictionary. -/
def assign_colors (classified_intervals : ℚ → Finset ℚ)
    (classified_delegates : List (ℕ × List ℚ)) :
    Except PyError (ℚ → Option Color) :=
  assign_groups classified_intervals classified_delegates (fun _ => none)

/-- Claim C5: with a defined base hue, a group with exactly one
delegate makes `generate_rich_colors` raise `ZeroDivisionError` from
the expression `i / (n - 1)` — it does not return the base hue.  For
two delegates the sweep works and yields the hues
`base_hue - hue_range` and `base_hue + hue_range`. -/
theorem generate_rich_colors_single_eval :
    generate_rich_colors (some (667/1000)) 1 (1/5) = .error .zeroDivision ∧
      generate_rich_colors (some (667/1000)) 2 (1/5) =
        .ok [rich_color (667/1000 - 1/5), rich_color (667/1000 + 1/5)] := by
  constructor
  · rfl
  · simp only [generate_rich_colors]
    rw [if_neg (by norm_num : ¬ (2 = 1)), show List.range 2 = [0, 1] from rfl]
    simp only [List.map_cons, List.map_nil, Except.ok.injEq, List.cons.injEq,
      and_true]
    constructor
    · show rich_color (sweep_hue (667/1000) (1/5) 2 0) = _
      unfold sweep_hue
      norm_num
    · show rich_color (sweep_hue (667/1000) (1/5) 2 1) = _
      unfold sweep_hue
      norm_num

/-- Claim C10: the limit-to-color table covers only the eight primes
2, 3, 5, 7, 11, 13, 17, 19, so a delegate group whose prime limit is a
prime above 19 makes `assign_colors` fail with a key-lookup error. -/
theorem assign_colors_unknown_limit :
    ∀ (ci : ℚ → Finset ℚ) (p : ℕ) (ds : List ℚ), 19 < p → Nat.Prime p →
      LIMIT_COLORS p = none ∧
      assign_colors ci [(p, ds)] = .error (.keyErrorNat p) := by
  intro ci p ds hp hprime
  have hnone : LIMIT_COLORS p = none := by
    unfold LIMIT_COLORS
    split_ifs with h2 h3 h5 h7 h11 h13 h17 h19
    all_goals first | rfl | omega
  refine ⟨hnone, ?_⟩
  show assign_groups ci [(p, ds)] (fun _ => none) = .error (.keyErrorNat p)
  rw [assign_groups, hnone]

/-- Witness for C10 at the concrete prime limit 23. -/
theorem assign_colors_unknown_limit_witness :
    assign_colors (fun _ => (∅ : Finset ℚ)) [(23, [(23:ℚ)/16])] =
      .error (.keyErrorNat 23) :=
  (assign_colors_unknown_limit (fun _ => ∅) 23 [23/16] (by norm_num) (by norm_num)).2

/-! Lemmas locating the color a delegate ends up with in the
dictionary built by `assign_colors`. -/

theorem assign_pairs_frame (ci : ℚ → Finset ℚ) (x : ℚ) :
    ∀ (pairs : List (ℚ × Color)) (acc : ℚ → Option Color),
      (∀ p ∈ pairs, x ∉ ci p.1) →
      assign_pairs ci acc pairs x = acc x := by
  intro pairs
  induction pairs with
  | nil => intro acc hx; rfl
  | cons p rest ih =>
      intro acc hx
      obtain ⟨d, col⟩ := p
      rw [assign_pairs, ih _ (fun p hp => hx p (List.mem_cons_of_mem _ hp))]
      exact if_neg (hx (d, col) (List.mem_cons_self _ _))

/-- The color stored for a delegate `d` after its group's pairs are
painted: the one zipped with `d`'s position, provided `d` is in its own
class, the delegate list has no duplicates, and no other delegate's
class captures `d`. -/
theorem assign_pairs_get (ci : ℚ → Finset ℚ) (d : ℚ) (hd : d ∈ ci d) :
    ∀ (ds : List ℚ) (cols : List Color) (acc : ℚ → Option Color) (i : ℕ)
      (hi1 : i < ds.length) (hi2 : i < cols.length),
      ds.Nodup → (∀ e ∈ ds, d ∈ ci e → e = d) → ds.get ⟨i, hi1⟩ = d →
      assign_pairs ci acc (ds.zip cols) d = some (cols.get ⟨i, hi2⟩) := by
  intro ds
  induction ds with
  | nil => intro cols acc i hi1; exact absurd hi1 (by simp)
  | cons e ds ih =>
      intro cols acc i hi1 hi2 hnodup hown hget
      cases cols with
      | nil => exact absurd hi2 (by simp)
      | cons c cols =>
          rw [List.zip_cons_cons, assign_pairs]
          cases i with
          | zero =>
              have he : e = d := hget
              subst he
              have hfr : ∀ p ∈ ds.zip cols, e ∉ ci p.1 := by
                intro p hp hmem
                have hp1 : p.1 ∈ ds := (List.of_mem_zip hp).1
                have hpe : p.1 = e := hown p.1 (List.mem_cons_of_mem _ hp1) hmem
                rw [hpe] at hp1
                exact (List.nodup_cons.mp hnodup).1 hp1
              rw [assign_pairs_frame ci e _ _ hfr]
              show (if e ∈ ci e then some c else acc e) = some c
              exact if_pos hd
          | succ j =>
              have hj1 : j < ds.length := by
                simpa using hi1
              have hj2 : j < cols.length := by
                simpa using hi2
              exact ih cols _ j hj1 hj2 (List.nodup_cons.mp hnodup).2
                (fun e' he' hm => hown e' (List.mem_cons_of_mem _ he') hm) hget

theorem assign_groups_frame (ci : ℚ → Finset ℚ) (x : ℚ) :
    ∀ (groups : List (ℕ × List ℚ)) (acc m : ℚ → Option Color),
      assign_groups ci groups acc = .ok m →
      (∀ g ∈ groups, ∀ e ∈ g.2, x ∉ ci e) →
      m x = acc x := by
  intro groups
  induction groups with
  | nil =>
      intro acc m h hx
      injection h with h
      rw [← h]
  | cons g rest ih =>
      intro acc m h hx
      obtain ⟨p, ds⟩ := g
      rw [assign_groups] at h
      split at h
      · exact Except.noConfusion h
      · split at h
        · exact Except.noConfusion h
        · split at h
          · exact Except.noConfusion h
          · rw [ih _ m h (fun g hg e he => hx g (List.mem_cons_of_mem _ hg) e he)]
            refine assign_pairs_frame ci x _ _ ?_
            intro pr hpr
            exact hx (p, ds) (List.mem_cons_self _ _) pr.1 (List.of_mem_zip hpr).1

theorem assign_groups_cons_inv (ci : ℚ → Finset ℚ) (p : ℕ) (ds : List ℚ)
    (rest : List (ℕ × List ℚ)) (acc m : ℚ → Option Color)
    (h : assign_groups ci ((p, ds) :: rest) acc = .ok m) :
    ∃ color_name prime_hue prime_colors,
      LIMIT_COLORS p = some color_name ∧
      COLORS_TO_HUES color_name = some prime_hue ∧
      generate_rich_colors prime_hue ds.length (1/5) = .ok prime_colors ∧
      assign_groups ci rest (assign_pairs ci acc (ds.zip prime_colors)) = .ok m := by
  rw [assign_groups] at h
  split at h
  · exact Except.noConfusion h
  next color_name heq =>
    split at h
    · exact Except.noConfusion h
    next prime_hue heq2 =>
      split at h
      · exact Except.noConfusion h
      next prime_colors heq3 =>
        exact ⟨color_name, prime_hue, prime_colors, heq, heq2, heq3, h⟩

/-- Two distinct positions of the symmetric hue sweep carry distinct
hues (before quantization) when the hue range is positive. -/
theorem sweep_hue_ne {h r : ℚ} (hr : 0 < r) {n i j : ℕ} (hi : i < n) (hj : j < n)
    (hij : i ≠ j) : sweep_hue h r n i ≠ sweep_hue h r n j := by
  have hn2 : 2 ≤ n := by omega
  have hc : ((n:ℚ) - 1) ≠ 0 := by
    have hge : (2:ℚ) ≤ (n:ℚ) := by exact_mod_cast hn2
    intro hcc
    linarith
  intro heq
  unfold sweep_hue at heq
  have h1 := add_left_cancel heq
  have h2 := mul_right_cancel₀ hr.ne' h1
  have h3 : ((i:ℚ)) / ((n:ℚ) - 1) = ((j:ℚ)) / ((n:ℚ) - 1) := by linarith
  field_simp at h3
  exact hij (by exact_mod_cast h3)

/-- The colors generated for a group with a defined base hue: one per
delegate, the color at position `i` being the quantization of the
swept hue at `i`. -/
theorem generate_rich_colors_defined_spec (h r : ℚ) (n : ℕ)
    (cols : List Color) (hok : generate_rich_colors (some h) n r = .ok cols) :
    cols.length = n ∧
      ∀ (i : ℕ) (hi : i < cols.length),
        cols.get ⟨i, hi⟩ = rich_color (sweep_hue h r n i) := by
  rw [generate_rich_colors] at hok
  split at hok
  · exact Except.noConfusion hok
  next hn1 =>
    injection hok with hok
    subst hok
    refine ⟨by simp, ?_⟩
    intro i hi
    simp

/-- The colors generated for the undefined-hue (dark grey) case: one
per delegate, all identical. -/
theorem generate_rich_colors_none_spec (n : ℕ) (r : ℚ) (cols : List Color)
    (hok : generate_rich_colors none n r = .ok cols) :
    cols.length = n ∧ ∀ col ∈ cols, col = hex_of_rgb (hls_to_rgb 0 (3/10) 0) := by
  rw [generate_rich_colors] at hok
  injection hok with hok
  subst hok
  refine ⟨by simp, ?_⟩
  intro col hcol
  obtain ⟨i, -, rfl⟩ := List.mem_map.mp hcol
  rfl

/-- The supporting lemma for the amended claim C9, over
`assign_groups` (the loop of `assign_colors`) with an arbitrary
starting dictionary: in a well-formed classification (delegates
globally distinct, each delegate a member of exactly its own class),
two distinct delegates of one prime-limit group receive the quantized
colors of two distinct positions of the hue sweep when the group's
base hue is defined (distinct hues before quantization), and identical
colors when it is the undefined (dark grey) hue. -/
theorem assign_groups_group_distinct (ci : ℚ → Finset ℚ) (d1 d2 : ℚ) (hne : d1 ≠ d2) :
    ∀ (groups : List (ℕ × List ℚ)) (acc m : ℚ → Option Color) (p : ℕ) (ds : List ℚ),
      assign_groups ci groups acc = .ok m →
      (p, ds) ∈ groups → d1 ∈ ds → d2 ∈ ds →
      ((groups.map Prod.snd).flatten).Nodup →
      (∀ e, (∃ g ∈ groups, e ∈ g.2) → e ∈ ci e) →
      (∀ e e', (∃ g ∈ groups, e ∈ g.2) → (∃ g ∈ groups, e' ∈ g.2) →
        e ∈ ci e' → e = e') →
      ∀ color_name, LIMIT_COLORS p = some color_name →
        (COLORS_TO_HUES color_name = some none → m d1 = m d2) ∧
        (∀ hue : ℚ, COLORS_TO_HUES color_name = some (some hue) →
          ∃ i1 i2 : ℕ, i1 ≠ i2 ∧
            sweep_hue hue (1/5) ds.length i1 ≠ sweep_hue hue (1/5) ds.length i2 ∧
            m d1 = some (rich_color (sweep_hue hue (1/5) ds.length i1)) ∧
            m d2 = some (rich_color (sweep_hue hue (1/5) ds.length i2))) := by
  intro groups
  induction groups with
  | nil =>
    intro acc m p ds h hmem
    exact absurd hmem (List.not_mem_nil _)
  | cons g rest ih =>
    intro acc m p ds h hmem hd1 hd2 hnodup hself hown cname hcname
    obtain ⟨q, es⟩ := g
    obtain ⟨cn, hueOpt, cols, hL, hH, hG, hrest⟩ :=
      assign_groups_cons_inv ci q es rest acc m h
    have hjoin : (es ++ ((rest.map Prod.snd).flatten)).Nodup := by simpa using hnodup
    rcases List.mem_cons.mp hmem with heq | hmem_rest
    . injection heq with hpq hdses
      subst hpq
      subst hdses
      have hcn : cn = cname := Option.some.inj (hL.symm.trans hcname)
      subst hcn
      have hds_nodup : ds.Nodup := (List.nodup_append.mp hjoin).1
      have hdisj := (List.nodup_append.mp hjoin).2.2
      have hmemg : ∀ x ∈ ds, (∃ g ∈ (p, ds) :: rest, x ∈ g.2) :=
        fun x hx => ⟨(p, ds), List.mem_cons_self _ _, hx⟩
      have hframe : ∀ x, x ∈ ds → m x = assign_pairs ci acc (ds.zip cols) x := by
        intro x hxds
        refine assign_groups_frame ci x rest _ m hrest ?_
        intro g hg e he hmemci
        have hex : e = x := (hown x e (hmemg x hxds)
          ⟨g, List.mem_cons_of_mem _ hg, he⟩ hmemci).symm
        subst hex
        exact hdisj hxds (List.mem_flatten.mpr
          ⟨g.2, List.mem_map_of_mem Prod.snd hg, he⟩)
      have hown_ds : ∀ x ∈ ds, ∀ e ∈ ds, x ∈ ci e → e = x :=
        fun x hx e he hmemci => (hown x e (hmemg x hx) (hmemg e he) hmemci).symm
      obtain ⟨⟨i1, hi1⟩, hget1⟩ := List.get_of_mem hd1
      obtain ⟨⟨i2, hi2⟩, hget2⟩ := List.get_of_mem hd2
      have hio : i1 ≠ i2 := by
        intro hii
        apply hne
        subst hii
        rw [← hget1, ← hget2]
      constructor
      . intro hnonehue
        have hhue : hueOpt = none := Option.some.inj (hH.symm.trans hnonehue)
        subst hhue
        obtain ⟨hlen, hconst⟩ := generate_rich_colors_none_spec ds.length (1/5) cols hG
        have hi1c : i1 < cols.length := by omega
        have hi2c : i2 < cols.length := by omega
        rw [hframe d1 hd1, hframe d2 hd2,
          assign_pairs_get ci d1 (hself d1 (hmemg d1 hd1)) ds cols acc i1 hi1 hi1c
            hds_nodup (hown_ds d1 hd1) hget1,
          assign_pairs_get ci d2 (hself d2 (hmemg d2 hd2)) ds cols acc i2 hi2 hi2c
            hds_nodup (hown_ds d2 hd2) hget2,
          hconst _ (List.get_mem cols i1 hi1c), hconst _ (List.get_mem cols i2 hi2c)]
      . intro hue hsomehue
        have hhue : hueOpt = some hue := Option.some.inj (hH.symm.trans hsomehue)
        subst hhue
        obtain ⟨hlen, hgetc⟩ :=
          generate_rich_colors_defined_spec hue (1/5) ds.length cols hG
        have hi1c : i1 < cols.length := by omega
        have hi2c : i2 < cols.length := by omega
        refine ⟨i1, i2, hio, sweep_hue_ne (by norm_num) hi1 hi2 hio, ?_, ?_⟩
        . rw [hframe d1 hd1,
            assign_pairs_get ci d1 (hself d1 (hmemg d1 hd1)) ds cols acc i1 hi1 hi1c
              hds_nodup (hown_ds d1 hd1) hget1, hgetc i1 hi1c]
        . rw [hframe d2 hd2,
            assign_pairs_get ci d2 (hself d2 (hmemg d2 hd2)) ds cols acc i2 hi2 hi2c
              hds_nodup (hown_ds d2 hd2) hget2, hgetc i2 hi2c]
    . refine ih _ m p ds hrest hmem_rest hd1 hd2 (List.nodup_append.mp hjoin).2.1
        (fun e he => hself e ?_) (fun e e' he he' hm => hown e e' ?_ ?_ hm)
        cname hcname
      . obtain ⟨g, hg, hge⟩ := he
        exact ⟨g, List.mem_cons_of_mem _ hg, hge⟩
      . obtain ⟨g, hg, hge⟩ := he
        exact ⟨g, List.mem_cons_of_mem _ hg, hge⟩
      . obtain ⟨g, hg, hge⟩ := he'
        exact ⟨g, List.mem_cons_of_mem _ hg, hge⟩

/-- Claim C9 (amended): `assign_colors` gives two distinct delegates of
a prime-limit group with a defined base hue the quantized colors of two
distinct positions of the symmetric hue sweep -- hues that are distinct
before the 8-bit `int(c * 255)` quantization, although the quantized
colors themselves can coincide (see the 1000-delegate collision) --
and gives all delegates of the undefined-hue (limit-2, dark grey)
group identical colors.  This holds for any classification whose
delegates are globally distinct and where each delegate is a member of
its own class and captured by no other delegate's class (which is what
`classify_intervals` produces, by C3). -/
theorem assign_colors_group_hues :
    ∀ (classified_intervals : ℚ → Finset ℚ)
      (classified_delegates : List (ℕ × List ℚ)) (m : ℚ → Option Color)
      (p : ℕ) (ds : List ℚ) (d1 d2 : ℚ),
      assign_colors classified_intervals classified_delegates = .ok m →
      (p, ds) ∈ classified_delegates → d1 ∈ ds → d2 ∈ ds → d1 ≠ d2 →
      ((classified_delegates.map Prod.snd).flatten).Nodup →
      (∀ e, (∃ g ∈ classified_delegates, e ∈ g.2) →
        e ∈ classified_intervals e) →
      (∀ e e', (∃ g ∈ classified_delegates, e ∈ g.2) →
        (∃ g ∈ classified_delegates, e' ∈ g.2) →
        e ∈ classified_intervals e' → e = e') →
      ∀ color_name, LIMIT_COLORS p = some color_name →
        (COLORS_TO_HUES color_name = some none → m d1 = m d2) ∧
        (∀ hue : ℚ, COLORS_TO_HUES color_name = some (some hue) →
          ∃ i1 i2 : ℕ, i1 ≠ i2 ∧
            sweep_hue hue (1/5) ds.length i1 ≠ sweep_hue hue (1/5) ds.length i2 ∧
            m d1 = some (rich_color (sweep_hue hue (1/5) ds.length i1)) ∧
            m d2 = some (rich_color (sweep_hue hue (1/5) ds.length i2))) := by
  intro ci groups m p ds d1 d2 hok hmem hd1 hd2 hne hnodup hself hown
  exact assign_groups_group_distinct ci d1 d2 hne groups (fun _ => none) m p ds
    hok hmem hd1 hd2 hnodup hself hown

/-- Concrete classification for the C9 corrections: each delegate is
its own singleton class. -/
def sample_ci (x : ℚ) : Finset ℚ := {x}

/-- Evaluation of a generated color for a hue strictly between 1/2 and
2/3: red 0, blue saturated, green on the descending ramp. -/
theorem rich_color_mid {hue : ℚ} (h1 : 1/2 < hue) (h2 : hue < 2/3) :
    rich_color hue = ⟨0, ⌊(2/3 - hue) * 6 * 255⌋, 255⟩ := by
  have hm2 : hls_m2 (1/2) 1 = 1 := by
    unfold hls_m2
    rw [if_pos (le_refl _)]
    norm_num
  have hfr : Int.fract hue = hue :=
    Int.fract_eq_self.mpr ⟨by linarith, by linarith⟩
  have hfr1 : Int.fract (hue + 1/3) = hue + 1/3 :=
    Int.fract_eq_self.mpr ⟨by linarith, by linarith⟩
  have hfr2 : Int.fract (hue - 1/3) = hue - 1/3 :=
    Int.fract_eq_self.mpr ⟨by linarith, by linarith⟩
  have hred : hls_value 0 1 (hue + 1/3) = 0 := by
    unfold hls_value
    rw [hfr1, if_neg (by linarith), if_neg (by linarith), if_neg (by linarith)]
  have hgreen : hls_value 0 1 hue = (2/3 - hue) * 6 := by
    unfold hls_value
    rw [hfr, if_neg (by linarith), if_neg (by linarith), if_pos (by linarith)]
    ring
  have hblue : hls_value 0 1 (hue - 1/3) = 1 := by
    unfold hls_value
    rw [hfr2, if_neg (by linarith), if_pos (by linarith)]
  have hrgb : hls_to_rgb hue (1/2) 1 = ((0:ℚ), (2/3 - hue) * 6, 1) := by
    unfold hls_to_rgb
    rw [if_neg (by norm_num : ¬ ((1:ℚ) = 0)), hm2,
      show (2:ℚ) * (1/2) - 1 = 0 from by norm_num, hred, hgreen, hblue]
  unfold rich_color hex_of_rgb
  rw [hrgb]
  norm_num

/-- The delegate list 3^1, ..., 3^1000: a thousand genuinely 3-limit
pitch ratios, pairwise in distinct octave classes. -/
def big_group_delegates : List ℚ :=
  (List.range 1000).map (fun (i : ℕ) => (3:ℚ) ^ (i + 1))

/-- A single prime-limit-3 group holding those thousand delegates. -/
def big_groups : List (ℕ × List ℚ) := [(3, big_group_delegates)]

/-- The colors generated for that group. -/
def big_cols : List Color :=
  (List.range 1000).map (fun (i : ℕ) => rich_color (sweep_hue (667/1000) (1/5) 1000 i))

/-- The color dictionary was built successfully and stores one and the
same color for both pitches. -/
def identical_color (r : Except PyError (ℚ → Option Color)) (x y : ℚ) : Prop :=
  match r with
  | .ok m => m x = m y ∧ (m x).isSome = true
  | .error _ => False

/-- Claim C9 counterexample: in the prime-limit-3 group with the 1000
delegates 3^1, ..., 3^1000, the two distinct delegates 3^102 and 3^103
(sweep positions 101 and 102) receive the identical quantized color
RGB (0, 243, 255): adjacent swept hues are only 2/4995 apart, and the
green channel of both hues quantizes to 243, refuting the claim that
delegates of a defined-hue group never share an identical color. -/
theorem assign_colors_quantized_collision :
    (3:ℚ) ^ 102 ≠ (3:ℚ) ^ 103 ∧
      identical_color (assign_colors sample_ci big_groups)
        ((3:ℚ) ^ 102) ((3:ℚ) ^ 103) := by
  have hne : (3:ℚ) ^ 102 ≠ (3:ℚ) ^ 103 :=
    ne_of_lt (pow_lt_pow_right₀ (by norm_num) (by norm_num))
  refine ⟨hne, ?_⟩
  have hlen : big_group_delegates.length = 1000 := by
    simp [big_group_delegates]
  have hgen : generate_rich_colors (some (667/1000)) big_group_delegates.length (1/5) =
      .ok big_cols := by
    rw [hlen]
    rfl
  have hm : assign_colors sample_ci big_groups =
      .ok (assign_pairs sample_ci (fun _ => none) (big_group_delegates.zip big_cols)) := by
    show assign_groups sample_ci [(3, big_group_delegates)] (fun _ => none) = _
    rw [assign_groups]
    simp only [show LIMIT_COLORS 3 = some ("blue") from rfl,
      show COLORS_TO_HUES ("blue") = some (some (667/1000)) from rfl, hgen]
    rw [assign_groups]
  have hsm : StrictMono (fun i : ℕ => (3:ℚ) ^ (i + 1)) := by
    intro a b hab
    exact pow_lt_pow_right₀ (by norm_num) (by omega)
  have hnodup : big_group_delegates.Nodup :=
    List.Nodup.map hsm.injective (List.nodup_range 1000)
  have hown1 : ∀ e ∈ big_group_delegates, (3:ℚ) ^ 102 ∈ sample_ci e → e = (3:ℚ) ^ 102 :=
    fun e he hmm => (Finset.mem_singleton.mp hmm).symm
  have hown2 : ∀ e ∈ big_group_delegates, (3:ℚ) ^ 103 ∈ sample_ci e → e = (3:ℚ) ^ 103 :=
    fun e he hmm => (Finset.mem_singleton.mp hmm).symm
  have h101 : (101:ℕ) < big_group_delegates.length := by rw [hlen]; norm_num
  have h102 : (102:ℕ) < big_group_delegates.length := by rw [hlen]; norm_num
  have h101c : (101:ℕ) < big_cols.length := by simp [big_cols]
  have h102c : (102:ℕ) < big_cols.length := by simp [big_cols]
  have hget101 : big_group_delegates.get ⟨101, h101⟩ = (3:ℚ) ^ 102 := by
    simp [big_group_delegates]
  have hget102 : big_group_delegates.get ⟨102, h102⟩ = (3:ℚ) ^ 103 := by
    simp [big_group_delegates]
  have hv1 : assign_pairs sample_ci (fun _ => none) (big_group_delegates.zip big_cols)
      ((3:ℚ) ^ 102) = some (big_cols.get ⟨101, h101c⟩) :=
    assign_pairs_get sample_ci _ (Finset.mem_singleton_self _) big_group_delegates
      big_cols _ 101 h101 h101c hnodup hown1 hget101
  have hv2 : assign_pairs sample_ci (fun _ => none) (big_group_delegates.zip big_cols)
      ((3:ℚ) ^ 103) = some (big_cols.get ⟨102, h102c⟩) :=
    assign_pairs_get sample_ci _ (Finset.mem_singleton_self _) big_group_delegates
      big_cols _ 102 h102 h102c hnodup hown2 hget102
  have hhue101 : sweep_hue (667/1000) (1/5) 1000 101 = 506933/999000 := by
    unfold sweep_hue
    norm_num
  have hhue102 : sweep_hue (667/1000) (1/5) 1000 102 = 507333/999000 := by
    unfold sweep_hue
    norm_num
  have hcol101 : big_cols.get ⟨101, h101c⟩ = rich_color (506933/999000) := by
    simp only [big_cols, List.get_eq_getElem, List.getElem_map, List.getElem_range]
    rw [hhue101]
  have hcol102 : big_cols.get ⟨102, h102c⟩ = rich_color (507333/999000) := by
    simp only [big_cols, List.get_eq_getElem, List.getElem_map, List.getElem_range]
    rw [hhue102]
  have hcc : rich_color (506933/999000) = rich_color (507333/999000) := by
    rw [rich_color_mid (by norm_num) (by norm_num),
      rich_color_mid (by norm_num) (by norm_num)]
    norm_num
  rw [hm]
  show assign_pairs sample_ci (fun _ => none) (big_group_delegates.zip big_cols)
        ((3:ℚ) ^ 102) =
      assign_pairs sample_ci (fun _ => none) (big_group_delegates.zip big_cols)
        ((3:ℚ) ^ 103) ∧
    (assign_pairs sample_ci (fun _ => none) (big_group_delegates.zip big_cols)
        ((3:ℚ) ^ 102)).isSome = true
  rw [hv1, hv2, hcol101, hcol102, hcc]
  exact ⟨rfl, rfl⟩

/-- A single undefined-hue (prime-limit-2, dark grey) group with the
two delegates 1 and 3. -/
def grey_groups : List (ℕ × List ℚ) := [(2, [1, 3])]

/-- The color dictionary was built successfully and stores the same
color for both pitches. -/
def colors_agree (r : Except PyError (ℚ → Option Color)) (x y : ℚ) : Prop :=
  match r with
  | .ok m => m x = m y
  | .error _ => False

/-- Witness for the amended C9 at a concrete input: the two delegates
of the undefined-hue group receive identical colors. -/
theorem assign_colors_group_hues_witness :
    colors_agree (assign_colors sample_ci grey_groups) 1 3 := by
  obtain ⟨m, hm⟩ : ∃ m, assign_colors sample_ci grey_groups = .ok m := ⟨_, rfl⟩
  rw [hm]
  show m 1 = m 3
  exact (assign_colors_group_hues sample_ci grey_groups m 2 [1, 3] 1 3 hm
    (by norm_num [grey_groups]) (by norm_num) (by norm_num) (by norm_num)
    (by norm_num [grey_groups]) (fun e he => Finset.mem_singleton_self e)
    (fun e e' he he' hmem => Finset.mem_singleton.mp hmem)
    ("dark_grey") rfl).1 rfl

end RIT
